import Mathlib

/-!
Verification of the core logic of `pole`, a terminal browser for secrets
stored in a Vault-style hierarchical key/value store.

The Go source is embedded shallowly:

* Go strings are modelled as lists of byte values (`GoStr := List Nat`).
  The program compares prompt and candidate bytes (`prompt[index]`,
  `range []byte(s)`) and Go's `strings.ToLower` / `strings.ToUpper`
  coincide with the byte-wise ASCII case maps on ASCII data, which is the
  data domain of the program (Vault paths and typed prompts).
* The concurrent tree walk (`getKeys` / `recurse` in main.go) emits the
  same multiset of keys in every interleaving; only the channel order is
  scheduler-dependent.  The walk is therefore modelled as a deterministic
  depth-first traversal, and the claims about it are stated about the set
  of emitted keys.  The store's `ListDir` responses are modelled as a tree
  (`NsTree`): a node is a successful listing, a 403 (`forbidden`), or any
  other failure (`failed`); a listing carries the relative child names
  exactly as `listDir` returns them, a child being a directory iff its
  name ends with `/`.
* `slices.SortFunc` (used by `newKeysView`) is modelled by its documented
  contract `SortFuncPost`: the output is a permutation of the input that
  is ascending with respect to the comparator
  `cmp(a,b) = b.ConsecutiveMatches - a.ConsecutiveMatches`, that is,
  non-increasing in the score.  The Go documentation explicitly does not
  guarantee stability for `SortFunc`.
* HTTP interactions are modelled by an oracle `GoStr → HttpResult` giving,
  for each URL, either a transport failure or a status code together with
  the decoded body (`none` standing for a body `json.Unmarshal` rejects).
* Go `int` fields of the UI state are modelled as `Int` (the values
  involved are far from 64-bit overflow), and the package-level mutable
  cache map of the vault client is threaded explicitly as an association
  list whose lookup agrees with Go map lookup.
-/

/-- A Go string, as the list of its bytes. -/
abbrev GoStr := List Nat

/-- Byte-wise ASCII lower-casing, the action of Go's `strings.ToLower`
on ASCII bytes. -/
def goLower (b : Nat) : Nat := if 65 ≤ b ∧ b ≤ 90 then b + 32 else b

/-- Byte-wise ASCII upper-casing, the action of Go's `strings.ToUpper`
on ASCII bytes. -/
def goUpper (b : Nat) : Nat := if 97 ≤ b ∧ b ≤ 122 then b - 32 else b

/-- `strings.ToLower` on a byte string. -/
def lowerStr (s : GoStr) : GoStr := s.map goLower

/-- `strings.ToUpper` on a byte string. -/
def upperStr (s : GoStr) : GoStr := s.map goUpper

/-- Bytes of an ASCII string literal, for concrete test inputs. -/
def bytes (s : String) : GoStr := s.data.map Char.toNat

/-- The scanning loop of `matchesPrompt` (main.go): walk the candidate
bytes left to right; on a byte equal to the current prompt byte, bump
`consecutive` when the previous candidate byte also matched, succeed when
the whole prompt has been consumed, otherwise advance the prompt index;
on a mismatch clear `previousMatched`.  Falling off the candidate yields
`(false, 0)`. -/
def matchLoop (prompt : GoStr) : Nat → Nat → Bool → GoStr → Bool × Nat
  | _, _, _, [] => (false, 0)
  | index, consecutive, previousMatched, c :: rest =>
    if c = prompt.getD index 0 then
      if index = prompt.length - 1 then
        (true, if previousMatched then consecutive + 1 else consecutive)
      else
        matchLoop prompt (index + 1)
          (if previousMatched then consecutive + 1 else consecutive) true rest
    else matchLoop prompt index consecutive false rest

/-- `matchesPrompt` from main.go: empty prompts always match with score 0;
otherwise both strings are lower-cased and scanned by `matchLoop`. -/
def matchesPrompt (prompt s : GoStr) : Bool × Nat :=
  if prompt.length = 0 then (true, 0)
  else matchLoop (lowerStr prompt) 0 0 false (lowerStr s)

/-- Spec-side definition (Matcher, §4.2): the candidate positions at which
the prompt characters are matched when scanning the candidate left to
right, taking each prompt character at the first position where it fits.
`none` when the prompt cannot be fully matched. -/
def scanPositions : GoStr → Nat → GoStr → Option (List Nat)
  | [], _, _ => some []
  | _ :: _, _, [] => none
  | p :: ps, i, c :: cs =>
    if c = p then (scanPositions ps (i + 1) cs).map (fun rest => i :: rest)
    else scanPositions (p :: ps) (i + 1) cs

/-- Spec-side definition (Matcher scoring, §4.2): the number of matched
positions that are immediately adjacent (by one character) to the
previous matched position. -/
def adjacentPairs : List Nat → Nat
  | p :: q :: rest => (if q = p + 1 then 1 else 0) + adjacentPairs (q :: rest)
  | _ => 0

/-- Adjacency count relative to an optional previous matched position;
helper for relating `matchLoop` to `adjacentPairs`. -/
def adjFrom (prev : Option Nat) : List Nat → Nat
  | [] => 0
  | p :: rest =>
    (match prev with
     | some q => if p = q + 1 then 1 else 0
     | none => 0) + adjFrom (some p) rest

/-- The contribution of the first element of a position list to the
adjacency count, relative to a previous position `p`. -/
def headAdj (p : Nat) : List Nat → Nat
  | [] => 0
  | q :: _ => if q = p + 1 then 1 else 0

/-- The byte of the path separator character. -/
def slashByte : Nat := 47

/-- Go `strings.HasSuffix(key, "/")`: does the path name a container? -/
def endsSlash (s : GoStr) : Bool := s.getLast? == some slashByte

mutual
/-- The store's `ListDir` responses over a subtree, as seen by `recurse`
(main.go): a successful listing with its relative child names, a 403
(`listDir` returns no entries and no error), or any other failure
(`listDir` returns an error and `recurse` abandons the branch). -/
inductive NsTree where
  | listed : NsChildren → NsTree
  | forbidden : NsTree
  | failed : NsTree
/-- The entries of one `ListDir` response: relative names paired with the
subtree the store would expose below each (ignored for leaf names). -/
inductive NsChildren where
  | nil : NsChildren
  | cons : GoStr → NsTree → NsChildren → NsChildren
end

mutual
/-- `recurse` from main.go for one `DirEnt`: a non-directory entry emits
its absolute name; a directory entry lists its children, prefixes each
relative name with its own name, and recurses, a child being a directory
iff its name ends in `/`.  The concurrent goroutines and the channel are
modelled by returning the emitted keys as a list in traversal order. -/
def recurseEnt : Bool → GoStr → NsTree → List GoStr
  | false, name, _ => [name]
  | true, name, NsTree.listed children => recurseChildren name children
  | true, _, NsTree.forbidden => []
  | true, _, NsTree.failed => []
/-- The loop of `recurse` over the entries of one listing. -/
def recurseChildren : GoStr → NsChildren → List GoStr
  | _, NsChildren.nil => []
  | name, NsChildren.cons rel sub rest =>
    recurseEnt (endsSlash rel) (name ++ rel) sub ++ recurseChildren name rest
end

/-- `getKeys` from main.go: drain the walk starting from the entrypoint
`DirEnt{IsDir: true, Name: "/"}`. -/
def getKeys (t : NsTree) : List GoStr := recurseEnt true (bytes "/") t

mutual
/-- A response tree is well formed when every relative name returned by a
listing is non-empty (Vault list responses name their children). -/
def wfTree : NsTree → Bool
  | NsTree.listed ch => wfChildren ch
  | NsTree.forbidden => true
  | NsTree.failed => true
/-- Well-formedness of the entries of one listing. -/
def wfChildren : NsChildren → Bool
  | NsChildren.nil => true
  | NsChildren.cons rel sub rest => (!rel.isEmpty) && wfTree sub && wfChildren rest
end

/-- Concatenation of two entry lists, for stating sibling isolation. -/
def nsAppend : NsChildren → NsChildren → NsChildren
  | NsChildren.nil, b => b
  | NsChildren.cons rel sub rest, b => NsChildren.cons rel sub (nsAppend rest b)

mutual
/-- Spec-side relation (TreeWalker, §4.1): `p` is the path of a leaf below
the container `parent`, formed by concatenating, level by level, the
parent path with the entry's name. -/
inductive IsLeafUnder : GoStr → NsTree → GoStr → Prop where
  | in_listing : ∀ parent children p,
      IsLeafAmong parent children p → IsLeafUnder parent (NsTree.listed children) p
/-- Spec-side relation: `p` is a leaf path contributed by one listing. -/
inductive IsLeafAmong : GoStr → NsChildren → GoStr → Prop where
  | here : ∀ parent rel sub rest, endsSlash rel = false →
      IsLeafAmong parent (NsChildren.cons rel sub rest) (parent ++ rel)
  | deeper : ∀ parent rel sub rest p, endsSlash rel = true →
      IsLeafUnder (parent ++ rel) sub p →
      IsLeafAmong parent (NsChildren.cons rel sub rest) p
  | later : ∀ parent rel sub rest p,
      IsLeafAmong parent rest p →
      IsLeafAmong parent (NsChildren.cons rel sub rest) p
end

/-- A small concrete namespace used for witnesses: the root lists a leaf
`foo` and a directory `bar/` whose listing holds the single leaf `baz`. -/
def demoTree : NsTree :=
  NsTree.listed (NsChildren.cons (bytes "foo") NsTree.forbidden
    (NsChildren.cons (bytes "bar/")
      (NsTree.listed (NsChildren.cons (bytes "baz") NsTree.failed NsChildren.nil))
      NsChildren.nil))

/-- JSON objects in secret payloads, abstracted as string-to-string
association lists; the program never inspects the values, only presence
(`nil` map vs populated map), modelled by the surrounding `Option`. -/
abbrev JsonMap := List (GoStr × GoStr)

/-- The decoded body of a secret response (the nested `data` object of
the `Secret` struct): `data` and `metadata` maps, `none` modelling a Go
`nil` map (the key absent from the JSON). -/
structure SecretFields where
  data : Option JsonMap
  metadata : Option JsonMap
deriving DecidableEq

/-- Outcome of one HTTP round trip: a transport failure, or a status code
together with the decoded body (`none` when `json.Unmarshal` fails). -/
inductive HttpResult where
  | netFailure : HttpResult
  | response : Nat → Option SecretFields → HttpResult
deriving DecidableEq

/-- The `VaultClient` struct of main.go. -/
structure VaultClient where
  addr : GoStr
  token : GoStr
  mount : GoStr

/-- The URL `{addr}/v1/{mount}/data{name}` built by `getSecret`. -/
def dataUrl (addr mount name : GoStr) : GoStr :=
  addr ++ bytes "/v1/" ++ mount ++ bytes "/data" ++ name

/-- The failure modes of `VaultClient.getSecret` (main.go): request
creation/transport errors, unmarshal errors, and the non-200 status
rejected after body inspection. -/
inductive GetSecretError where
  | requestFailed : GetSecretError
  | decodeFailed : GetSecretError
  | statusNotOk : GetSecretError
deriving DecidableEq

/-- `getSecret` from main.go, over an HTTP oracle: read and decode the
body first, then fail on a non-200 status only when the decoded body has
both `data` and `metadata` absent (`isErrorForRealForReal`); otherwise
the decoded body is returned even for a non-200 status. -/
def VaultClient.getSecret (store : GoStr → HttpResult) (v : VaultClient)
    (name : GoStr) : Except GetSecretError SecretFields :=
  match store (dataUrl v.addr v.mount name) with
  | HttpResult.netFailure => Except.error GetSecretError.requestFailed
  | HttpResult.response _ none => Except.error GetSecretError.decodeFailed
  | HttpResult.response status (some secret) =>
    if status ≠ 200 ∧ secret.data = none ∧ secret.metadata = none then
      Except.error GetSecretError.statusNotOk
    else Except.ok secret

/-- The `vault.Secret` struct of the vault package (part_005): the UI URL
stamped by `GetSecret` plus the nested `data` object. -/
structure VaultSecret where
  url : GoStr
  content : SecretFields
deriving DecidableEq

/-- The `vault.Client` struct of the vault package (part_005). -/
structure Client where
  addr : GoStr
  token : GoStr

/-- The UI URL `{addr}/ui/vault/secrets/{mount}/show{name}` stamped on a
freshly fetched secret by `Client.GetSecret`. -/
def uiUrl (addr mount name : GoStr) : GoStr :=
  addr ++ bytes "/ui/vault/secrets/" ++ mount ++ bytes "/show" ++ name

/-- The package-level `cachedSecrets` map, threaded explicitly; lookup of
the first binding of a key agrees with Go map lookup because `GetSecret`
prepends each new binding. -/
abbrev Cache := List (GoStr × VaultSecret)

/-- Go map read from the cache. -/
def cacheLookup (k : GoStr) : Cache → Option VaultSecret
  | [] => none
  | (k', v) :: rest => if k = k' then some v else cacheLookup k rest

/-- `Client.GetSecret` from the vault package (part_005): return the
cached secret when `cachedSecrets[name]` hits; otherwise perform the
request (panics — modelled as `none` — on transport, decode, or a non-200
status with an empty body), stamp the UI URL, store the secret under the
bare `name`, and return it.  The second component is the updated cache
and the third records whether the store was contacted. -/
def Client.GetSecret (store : GoStr → HttpResult) (c : Client) (cache : Cache)
    (mount name : GoStr) : Option VaultSecret × Cache × Bool :=
  match cacheLookup name cache with
  | some secret => (some secret, cache, false)
  | none =>
    match store (dataUrl c.addr mount name) with
    | HttpResult.netFailure => (none, cache, true)
    | HttpResult.response _ none => (none, cache, true)
    | HttpResult.response status (some body) =>
      if status ≠ 200 ∧ body.data = none ∧ body.metadata = none then (none, cache, true)
      else
        (some { url := uiUrl c.addr mount name, content := body },
          (name, { url := uiUrl c.addr mount name, content := body }) :: cache, true)

/-- The HTTP oracle used by the cache witnesses: every URL answers 200
with a decoded body carrying an empty data map. -/
def demoStore : GoStr → HttpResult :=
  fun _ => HttpResult.response 200 (some ⟨some [], none⟩)

/-- The secret `demoStore` yields for path "p" on mount "m1". -/
def demoSecret : VaultSecret :=
  { url := uiUrl [] (bytes "m1") (bytes "p"), content := ⟨some [], none⟩ }

/-- The cache after fetching "p" once through mount "m1". -/
def demoCache : Cache := [(bytes "p", demoSecret)]

/-- The `Match` struct of main.go: a kept key with its score. -/
structure Match where
  key : GoStr
  consecutiveMatches : Nat
deriving DecidableEq

/-- The match-collection loop of `newKeysView`: apply `matchesPrompt` to
every key and keep the matches with their scores, in input order. -/
def matchesOf (prompt : GoStr) (keys : List GoStr) : List Match :=
  keys.filterMap fun k =>
    if (matchesPrompt prompt k).fst then
      some { key := k, consecutiveMatches := (matchesPrompt prompt k).snd }
    else none

/-- The documented contract of `slices.SortFunc(matches, cmp)` with
`cmp(a, b) = b.ConsecutiveMatches - a.ConsecutiveMatches`: the result is
a permutation of the input, ascending under `cmp`, i.e. non-increasing in
the score.  Go documents that `SortFunc` is NOT guaranteed to be stable
(`SortStableFunc` is the stable variant), so any such permutation is an
admissible outcome. -/
def SortFuncPost (input output : List Match) : Prop :=
  input.Perm output
    ∧ output.Chain' (fun a b => b.consecutiveMatches ≤ a.consecutiveMatches)

/-- The `Ui` view state of main.go, restricted to the fields the
transitions read or write (`Screen`, `Width`, and `Result` only feed
rendering and program exit).  Go `int` fields are modelled as `Int`.
`secret` records which path the selected `vault.Secret` was fetched for,
`none` standing for the zero `vault.Secret{}` of an empty selection. -/
structure Ui where
  keys : List GoStr
  filteredKeys : List GoStr
  prompt : GoStr
  secret : Option GoStr
  viewStart : Int
  viewEnd : Int
  cursor : Int
  height : Int

/-- The `SCROLL_OFF` constant of main.go. -/
def SCROLL_OFF : Int := 4

/-- `nKeysToShow` from main.go: the viewport holds `height - 2` keys. -/
def nKeysToShow (windowHeight : Int) : Int := windowHeight - 2

/-- `setSecret` from main.go: select (and fetch) the key under the
cursor, or clear the selection when nothing is filtered. -/
def setSecret (s : Ui) : Ui :=
  if 0 < s.filteredKeys.length then
    { s with secret := some (s.filteredKeys.getD (s.viewStart + s.cursor).toNat []) }
  else { s with secret := none }

/-- `newKeysView` from main.go, as a relation because the sort outcome is
only constrained by the `slices.SortFunc` contract (`SortFuncPost`):
collect the matches, sort them by descending score, reset the window to
the top, clamp the cursor into the filtered list, and re-select. -/
def newKeysViewRel (s s' : Ui) : Prop :=
  ∃ sorted, SortFuncPost (matchesOf s.prompt s.keys) sorted ∧
    s' = setSecret { s with
      filteredKeys := sorted.map Match.key,
      viewStart := 0,
      viewEnd := min (nKeysToShow s.height) (sorted.length : Int),
      cursor := if sorted.length = 0 then 0 else min s.cursor ((sorted.length : Int) - 1) }

/-- `moveUp` from main.go: move the selection one entry up the list,
shifting the window instead of the cursor inside the scroll margin. -/
def moveUp (s : Ui) : Ui :=
  setSecret
    (if s.viewStart + s.cursor + 1 < (s.filteredKeys.length : Int) then
      if s.cursor + 1 ≥ nKeysToShow s.height - SCROLL_OFF
          ∧ s.viewEnd < (s.filteredKeys.length : Int) then
        { s with viewStart := s.viewStart + 1, viewEnd := s.viewEnd + 1 }
      else { s with cursor := s.cursor + 1 }
    else s)

/-- `moveDown` from main.go: the symmetric move. -/
def moveDown (s : Ui) : Ui :=
  setSecret
    (if 0 < s.cursor then
      if s.cursor - 1 < SCROLL_OFF ∧ 0 < s.viewStart then
        { s with viewStart := s.viewStart - 1, viewEnd := s.viewEnd - 1 }
      else { s with cursor := s.cursor - 1 }
    else s)

/-- The `EventResize` handler of main.go: record the new height, clamp
`viewEnd`, and jump back to the top when the selection fell outside the
new window.  It does not re-run `setSecret`. -/
def resizeEv (s : Ui) (newHeight : Int) : Ui :=
  let s1 : Ui :=
    { s with
      height := newHeight
      viewEnd := min (nKeysToShow newHeight) (s.filteredKeys.length : Int) }
  if s1.viewStart + s1.cursor ≥ s1.viewEnd then
    { s1 with cursor := 0, viewStart := 0 }
  else s1

/-- The state built in `main` before the first `newKeysView` call: zero
values everywhere, then `Keys` discovered and the screen size read. -/
def initUi (keys : List GoStr) (h : Int) : Ui :=
  { keys := keys, filteredKeys := [], prompt := [], secret := none,
    viewStart := 0, viewEnd := 0, cursor := 0, height := h }

/-- The ViewState invariant claimed by the spec (§3): with a non-empty
filtered list the cursor sits in `[0, min(viewportSize, len(filtered) -
viewStart))` and `viewStart + cursor` indexes `filtered`; with an empty
filtered list the cursor is 0 and no secret is selected. -/
abbrev ClaimInv (s : Ui) : Prop :=
  (0 < s.filteredKeys.length →
    0 ≤ s.cursor
      ∧ s.cursor < min (nKeysToShow s.height) ((s.filteredKeys.length : Int) - s.viewStart)
      ∧ 0 ≤ s.viewStart + s.cursor
      ∧ s.viewStart + s.cursor < (s.filteredKeys.length : Int))
  ∧ (s.filteredKeys.length = 0 → s.cursor = 0 ∧ s.secret = none)

/-- The inductive strengthening of `ClaimInv` actually maintained by the
transitions: additionally the window start is non-negative and the window
never exceeds the viewport size. -/
abbrev InvAux (s : Ui) : Prop :=
  ClaimInv s ∧ 0 ≤ s.viewStart ∧ s.viewEnd ≤ s.viewStart + nKeysToShow s.height

/-- `ClaimInv` minus the selection clause, for states about to pass
through `setSecret` (which recomputes the selection). -/
abbrev NumInv (s : Ui) : Prop :=
  (0 < s.filteredKeys.length →
    0 ≤ s.cursor
      ∧ s.cursor < min (nKeysToShow s.height) ((s.filteredKeys.length : Int) - s.viewStart)
      ∧ 0 ≤ s.viewStart + s.cursor
      ∧ s.viewStart + s.cursor < (s.filteredKeys.length : Int))
  ∧ (s.filteredKeys.length = 0 → s.cursor = 0)
  ∧ 0 ≤ s.viewStart ∧ s.viewEnd ≤ s.viewStart + nKeysToShow s.height

/-- A legitimate browsing state: one filtered key, cursor on it, in a
10-row terminal. -/
def uiDemo : Ui :=
  { keys := [bytes "a"], filteredKeys := [bytes "a"], prompt := [],
    secret := some (bytes "a"), viewStart := 0, viewEnd := 1, cursor := 0, height := 10 }

/-- Unfolding lemma: an exhausted candidate fails. -/
theorem matchLoop_nil (prompt : GoStr) (index consecutive : Nat) (pm : Bool) :
    matchLoop prompt index consecutive pm [] = (false, 0) := rfl

/-- Unfolding lemma: a match on the last prompt byte succeeds at once. -/
theorem matchLoop_cons_last (prompt : GoStr) {c : Nat} (index consecutive : Nat) (pm : Bool)
    (rest : GoStr) (hc : c = prompt.getD index 0) (hidx : index = prompt.length - 1) :
    matchLoop prompt index consecutive pm (c :: rest)
      = (true, if pm then consecutive + 1 else consecutive) := by
  simp only [matchLoop]
  rw [if_pos hc, if_pos hidx]

/-- Unfolding lemma: a match on an inner prompt byte advances the index. -/
theorem matchLoop_cons_step (prompt : GoStr) {c : Nat} (index consecutive : Nat) (pm : Bool)
    (rest : GoStr) (hc : c = prompt.getD index 0) (hidx : index ≠ prompt.length - 1) :
    matchLoop prompt index consecutive pm (c :: rest)
      = matchLoop prompt (index + 1) (if pm then consecutive + 1 else consecutive) true rest := by
  simp only [matchLoop]
  rw [if_pos hc, if_neg hidx]

/-- Unfolding lemma: a mismatching candidate byte is skipped. -/
theorem matchLoop_cons_skip (prompt : GoStr) {c : Nat} (index consecutive : Nat) (pm : Bool)
    (rest : GoStr) (hc : ¬ c = prompt.getD index 0) :
    matchLoop prompt index consecutive pm (c :: rest)
      = matchLoop prompt index consecutive false rest := by
  simp only [matchLoop]
  rw [if_neg hc]

/-- When the scan reports no match, the whole result is `(false, 0)`,
regardless of partial progress. -/
theorem matchLoop_false_eq (prompt : GoStr) (s : GoStr) :
    ∀ (index consecutive : Nat) (pm : Bool),
      (matchLoop prompt index consecutive pm s).fst = false →
      matchLoop prompt index consecutive pm s = (false, 0) := by
  induction s with
  | nil => intro index consecutive pm _; rfl
  | cons c rest ih =>
    intro index consecutive pm h
    by_cases hc : c = prompt.getD index 0
    · by_cases hidx : index = prompt.length - 1
      · rw [matchLoop_cons_last prompt index consecutive pm rest hc hidx] at h
        simp at h
      · rw [matchLoop_cons_step prompt index consecutive pm rest hc hidx] at h ⊢
        exact ih _ _ _ h
    · rw [matchLoop_cons_skip prompt index consecutive pm rest hc] at h ⊢
      exact ih _ _ _ h

/-- An empty prompt scans to the empty position list on any candidate. -/
theorem scanPositions_nil (i : Nat) (s : GoStr) : scanPositions [] i s = some [] := by
  cases s <;> rfl

/-- All positions reported by the scan lie at or after the start index. -/
theorem scanPositions_le (s : GoStr) :
    ∀ (ps : GoStr) (i : Nat) (l : List Nat),
      scanPositions ps i s = some l → ∀ x ∈ l, i ≤ x := by
  induction s with
  | nil =>
    intro ps i l h x hx
    cases ps with
    | nil => simp [scanPositions] at h; subst h; simp at hx
    | cons p pr => simp [scanPositions] at h
  | cons c cs ih =>
    intro ps i l h x hx
    cases ps with
    | nil => simp [scanPositions] at h; subst h; simp at hx
    | cons p pr =>
      by_cases hc : c = p
      · simp only [scanPositions, if_pos hc, Option.map_eq_some'] at h
        obtain ⟨l', hl', rfl⟩ := h
        rcases List.mem_cons.mp hx with rfl | hx'
        · exact le_refl x
        · exact le_of_lt (Nat.lt_of_lt_of_le (Nat.lt_succ_self i) (ih pr (i + 1) l' hl' x hx'))
      · simp only [scanPositions, if_neg hc] at h
        exact le_of_lt (Nat.lt_of_lt_of_le (Nat.lt_succ_self i) (ih (p :: pr) (i + 1) l h x hx))

/-- A stale previous position that cannot be adjacent to anything in the
list does not affect the adjacency count. -/
theorem adjFrom_none_of_head (q : Nat) (l : List Nat)
    (h : ∀ x ∈ l.head?, x ≠ q + 1) : adjFrom (some q) l = adjFrom none l := by
  cases l with
  | nil => rfl
  | cons p r =>
    have hp : p ≠ q + 1 := h p (by simp)
    simp [adjFrom, hp]

/-- `adjacentPairs` of a cons splits into the head contribution and the
pairs of the tail. -/
theorem adjacentPairs_cons (p : Nat) (r : List Nat) :
    adjacentPairs (p :: r) = headAdj p r + adjacentPairs r := by
  cases r <;> simp [adjacentPairs, headAdj]

/-- `adjFrom` with a previous position splits off the head contribution. -/
theorem adjFrom_some_eq (r : List Nat) :
    ∀ p : Nat, adjFrom (some p) r = headAdj p r + adjacentPairs r := by
  induction r with
  | nil => intro p; rfl
  | cons q r' ih =>
    intro p
    have h1 : adjFrom (some p) (q :: r')
        = (if q = p + 1 then 1 else 0) + adjFrom (some q) r' := rfl
    have h2 : headAdj p (q :: r') = if q = p + 1 then 1 else 0 := rfl
    rw [h1, h2, ih q, adjacentPairs_cons]

/-- `adjFrom` with no previous position computes `adjacentPairs`. -/
theorem adjFrom_none_eq (l : List Nat) : adjFrom none l = adjacentPairs l := by
  cases l with
  | nil => rfl
  | cons p r =>
    have h1 : adjFrom none (p :: r) = 0 + adjFrom (some p) r := rfl
    rw [h1, adjFrom_some_eq r p, adjacentPairs_cons]
    omega

/-- Refinement of the matcher's score: on success, the score accumulated
by `matchLoop` is the adjacency count of the left-to-right scan positions
of the remaining prompt. -/
theorem matchLoop_scan (prompt : GoStr) (s : GoStr) :
    ∀ (index i consecutive : Nat) (pm : Bool),
      index < prompt.length →
      (pm = true → 1 ≤ i) →
      (matchLoop prompt index consecutive pm s).fst = true →
      ∃ ps, scanPositions (prompt.drop index) i s = some ps ∧
        (matchLoop prompt index consecutive pm s).snd
          = consecutive + adjFrom (if pm then some (i - 1) else none) ps := by
  induction s with
  | nil =>
    intro index i consecutive pm _ _ h
    simp [matchLoop_nil] at h
  | cons c rest ih =>
    intro index i consecutive pm hlt hpm h
    have hdrop : prompt.drop index = prompt[index] :: prompt.drop (index + 1) :=
      List.drop_eq_getElem_cons hlt
    have hgetD : prompt.getD index 0 = prompt[index] := List.getD_eq_getElem prompt 0 hlt
    by_cases hc : c = prompt.getD index 0
    · have hc' : c = prompt[index] := by rw [hc, hgetD]
      by_cases hidx : index = prompt.length - 1
      · rw [matchLoop_cons_last prompt index consecutive pm rest hc hidx] at h ⊢
        have hnil : prompt.drop (index + 1) = [] :=
          List.drop_eq_nil_iff.mpr (by omega)
        refine ⟨[i], ?_, ?_⟩
        · rw [hdrop, hnil]
          simp [scanPositions, hc', scanPositions_nil]
        · cases pm with
          | false => rfl
          | true =>
            have hi : 1 ≤ i := hpm rfl
            have h1 : (if (true : Bool) = true then some (i - 1) else none)
                = some (i - 1) := rfl
            have h2 : adjFrom (some (i - 1)) [i]
                = (if i = i - 1 + 1 then 1 else 0) + 0 := rfl
            rw [h1, h2, if_pos (show i = i - 1 + 1 by omega)]
            rfl
      · rw [matchLoop_cons_step prompt index consecutive pm rest hc hidx] at h ⊢
        have hlt' : index + 1 < prompt.length := by omega
        obtain ⟨ps', hscan', hsnd'⟩ :=
          ih (index + 1) (i + 1) (if pm then consecutive + 1 else consecutive) true hlt'
            (fun _ => by omega) h
        refine ⟨i :: ps', ?_, ?_⟩
        · rw [hdrop]
          simp only [scanPositions, if_pos hc', hscan', Option.map_some']
        · rw [hsnd']
          cases pm with
          | false =>
            have h1 : (if (true : Bool) = true then some (i + 1 - 1) else none)
                = some i := rfl
            have h2 : (if (false : Bool) = true then some (i - 1) else none) = none := rfl
            have h3 : adjFrom none (i :: ps') = 0 + adjFrom (some i) ps' := rfl
            have h4 : (if (false : Bool) = true then consecutive + 1 else consecutive)
                = consecutive := rfl
            rw [h1, h2, h3, h4]
            omega
          | true =>
            have hi : 1 ≤ i := hpm rfl
            have h1 : (if (true : Bool) = true then some (i + 1 - 1) else none)
                = some i := rfl
            have h2 : (if (true : Bool) = true then some (i - 1) else none)
                = some (i - 1) := rfl
            have h3 : adjFrom (some (i - 1)) (i :: ps')
                = (if i = i - 1 + 1 then 1 else 0) + adjFrom (some i) ps' := rfl
            have h4 : (if (true : Bool) = true then consecutive + 1 else consecutive)
                = consecutive + 1 := rfl
            rw [h1, h2, h3, h4, if_pos (show i = i - 1 + 1 by omega)]
            omega
    · rw [matchLoop_cons_skip prompt index consecutive pm rest hc] at h ⊢
      obtain ⟨ps, hscan, hsnd⟩ := ih index (i + 1) consecutive false hlt (by simp) h
      have hc' : ¬ c = prompt[index] := by rw [← hgetD]; exact hc
      refine ⟨ps, ?_, ?_⟩
      · rw [hdrop]
        rw [hdrop] at hscan
        simp only [scanPositions, if_neg hc']
        exact hscan
      · rw [hsnd]
        cases pm with
        | false => rfl
        | true =>
          have hi : 1 ≤ i := hpm rfl
          have hhead : ∀ x ∈ ps.head?, x ≠ i - 1 + 1 := by
            intro x hx
            have hmem : x ∈ ps := by
              cases ps with
              | nil => simp at hx
              | cons a r =>
                simp at hx
                subst hx
                simp
            have := scanPositions_le rest (prompt.drop index) (i + 1) ps hscan x hmem
            omega
          have h1 : (if (true : Bool) = true then some (i - 1) else none)
              = some (i - 1) := rfl
          rw [h1, adjFrom_none_of_head (i - 1) ps hhead]
          rfl

/-- On success, `matchLoop` reports a match exactly when the remaining
prompt is a subsequence of the candidate. -/
theorem matchLoop_fst_iff (prompt : GoStr) (s : GoStr) :
    ∀ (index consecutive : Nat) (pm : Bool), index < prompt.length →
      ((matchLoop prompt index consecutive pm s).fst = true
        ↔ (prompt.drop index).Sublist s) := by
  induction s with
  | nil =>
    intro index consecutive pm hlt
    simp only [matchLoop_nil]
    constructor
    · intro h; simp at h
    · intro h
      have := List.sublist_nil.mp h
      rw [List.drop_eq_nil_iff] at this
      omega
  | cons c rest ih =>
    intro index consecutive pm hlt
    have hdrop : prompt.drop index = prompt[index] :: prompt.drop (index + 1) :=
      List.drop_eq_getElem_cons hlt
    have hgetD : prompt.getD index 0 = prompt[index] := List.getD_eq_getElem prompt 0 hlt
    by_cases hc : c = prompt.getD index 0
    · have hc' : c = prompt[index] := by rw [hc, hgetD]
      by_cases hidx : index = prompt.length - 1
      · rw [matchLoop_cons_last prompt index consecutive pm rest hc hidx]
        have hnil : prompt.drop (index + 1) = [] :=
          List.drop_eq_nil_iff.mpr (by omega)
        rw [hdrop, hnil, hc']
        simp [List.cons_sublist_cons]
      · rw [matchLoop_cons_step prompt index consecutive pm rest hc hidx]
        rw [hdrop, hc', List.cons_sublist_cons]
        exact ih (index + 1) _ true (by omega)
    · have hc' : ¬ c = prompt[index] := by rw [← hgetD]; exact hc
      rw [matchLoop_cons_skip prompt index consecutive pm rest hc]
      rw [ih index consecutive false hlt, hdrop]
      constructor
      · intro h
        exact List.Sublist.cons c h
      · intro h
        cases h with
        | cons _ h' => exact h'
        | cons₂ _ h' => exact absurd rfl hc'

/-- On ASCII bytes, lower-casing twice is the same as lower-casing once. -/
theorem goLower_goLower (b : Nat) : goLower (goLower b) = goLower b := by
  unfold goLower
  split_ifs <;> omega

/-- On ASCII bytes, lower-casing after upper-casing is lower-casing. -/
theorem goLower_goUpper (b : Nat) : goLower (goUpper b) = goLower b := by
  unfold goLower goUpper
  split_ifs <;> omega

/-- `lowerStr` is idempotent. -/
theorem lowerStr_lowerStr (s : GoStr) : lowerStr (lowerStr s) = lowerStr s := by
  induction s with
  | nil => rfl
  | cons b r ih => simp only [lowerStr, List.map_cons] at ih ⊢; rw [goLower_goLower]; rw [ih]

/-- `lowerStr` absorbs a preceding `upperStr`. -/
theorem lowerStr_upperStr (s : GoStr) : lowerStr (upperStr s) = lowerStr s := by
  induction s with
  | nil => rfl
  | cons b r ih =>
    simp only [lowerStr, upperStr, List.map_cons] at ih ⊢
    rw [goLower_goUpper]
    rw [ih]

/-- Claim C1: whenever `matchesPrompt` reports a match, the returned score
is the number of matched prompt bytes, beyond the first, whose match
position in the candidate is immediately adjacent to the previous matched
byte's position under the left-to-right scan (`scanPositions`); in
particular the score for "set" in "secret" is 1 and for "secret" in
"secret" is 5. -/
theorem c1_score_adjacent_pairs :
    (∀ P C : GoStr, (matchesPrompt P C).fst = true →
      ∃ ps, scanPositions (lowerStr P) 0 (lowerStr C) = some ps ∧
        (matchesPrompt P C).snd = adjacentPairs ps)
    ∧ matchesPrompt (bytes "set") (bytes "secret") = (true, 1)
    ∧ matchesPrompt (bytes "secret") (bytes "secret") = (true, 5) := by
  refine ⟨?_, by decide, by decide⟩
  intro P C h
  by_cases hP : P.length = 0
  · have hnil : P = [] := List.eq_nil_of_length_eq_zero hP
    subst hnil
    refine ⟨[], ?_, ?_⟩
    · have : lowerStr [] = ([] : GoStr) := rfl
      rw [this, scanPositions_nil]
    · rfl
  · have hm : matchesPrompt P C = matchLoop (lowerStr P) 0 0 false (lowerStr C) := by
      simp [matchesPrompt, hP]
    rw [hm] at h ⊢
    have hlen : 0 < (lowerStr P).length := by
      simp only [lowerStr, List.length_map]
      omega
    obtain ⟨ps, hscan, hsnd⟩ :=
      matchLoop_scan (lowerStr P) (lowerStr C) 0 0 0 false hlen (by simp) h
    refine ⟨ps, ?_, ?_⟩
    · simpa using hscan
    · rw [hsnd]
      have h1 : (if (false : Bool) = true then some (0 - 1) else none)
          = (none : Option Nat) := rfl
      rw [h1, adjFrom_none_eq]
      omega

/-- Witness for C1 at the concrete input prompt "set", candidate "secret". -/
theorem c1_score_adjacent_pairs_witness :
    ∃ ps, scanPositions (lowerStr (bytes "set")) 0 (lowerStr (bytes "secret")) = some ps ∧
      (matchesPrompt (bytes "set") (bytes "secret")).snd = adjacentPairs ps :=
  c1_score_adjacent_pairs.1 (bytes "set") (bytes "secret") (by decide)

/-- Claim C2: the empty prompt always matches with score 0; a non-empty
prompt matches exactly when its lower-casing is a subsequence
(`List.Sublist`) of the lower-cased candidate; and whenever the scan
fails the whole result is `(false, 0)` regardless of partial progress. -/
theorem c2_subsequence_semantics :
    (∀ C : GoStr, matchesPrompt [] C = (true, 0))
    ∧ (∀ P C : GoStr, P ≠ [] →
        ((matchesPrompt P C).fst = true ↔ (lowerStr P).Sublist (lowerStr C)))
    ∧ (∀ P C : GoStr, (matchesPrompt P C).fst = false →
        matchesPrompt P C = (false, 0)) := by
  refine ⟨fun C => rfl, ?_, ?_⟩
  · intro P C hP
    have hm : matchesPrompt P C = matchLoop (lowerStr P) 0 0 false (lowerStr C) := by
      simp [matchesPrompt, List.length_eq_zero.not.mpr hP]
    have hlen : 0 < (lowerStr P).length := by
      simp only [lowerStr, List.length_map]
      exact List.length_pos.mpr hP
    rw [hm]
    simpa using matchLoop_fst_iff (lowerStr P) (lowerStr C) 0 0 false hlen
  · intro P C h
    by_cases hP : P.length = 0
    · simp [matchesPrompt, hP] at h
    · have hm : matchesPrompt P C = matchLoop (lowerStr P) 0 0 false (lowerStr C) := by
        simp [matchesPrompt, hP]
      rw [hm] at h ⊢
      exact matchLoop_false_eq (lowerStr P) (lowerStr C) 0 0 false h

/-- Witness for C2 at prompt "set", candidate "secret": the
case-insensitive subsequence relation follows from the computed match. -/
theorem c2_subsequence_semantics_witness :
    (lowerStr (bytes "set")).Sublist (lowerStr (bytes "secret")) :=
  (c2_subsequence_semantics.2.1 (bytes "set") (bytes "secret") (by decide)).mp (by decide)

/-- Claim C9: `matchesPrompt` is case-insensitive — upper-casing the
prompt and lower-casing the candidate never changes the result. -/
theorem c9_case_insensitive (P C : GoStr) :
    matchesPrompt P C = matchesPrompt (upperStr P) (lowerStr C) := by
  unfold matchesPrompt
  have h1 : (upperStr P).length = P.length := by
    simp [upperStr]
  rw [h1, lowerStr_upperStr, lowerStr_lowerStr]

mutual
/-- The keys emitted below a directory entry are exactly the leaf paths
below it. -/
theorem mem_recurseEnt (t : NsTree) :
    ∀ (name p : GoStr), p ∈ recurseEnt true name t ↔ IsLeafUnder name t p := by
  cases t with
  | listed children =>
    intro name p
    have hrec : recurseEnt true name (NsTree.listed children)
        = recurseChildren name children := rfl
    rw [hrec, mem_recurseChildren children name p]
    constructor
    · intro h
      exact IsLeafUnder.in_listing name children p h
    · intro h
      cases h with
      | in_listing _ _ _ h' => exact h'
  | forbidden =>
    intro name p
    constructor
    · intro h
      simp [recurseEnt] at h
    · intro h
      cases h
  | failed =>
    intro name p
    constructor
    · intro h
      simp [recurseEnt] at h
    · intro h
      cases h
/-- The keys emitted by the loop over one listing are exactly the leaf
paths contributed by that listing. -/
theorem mem_recurseChildren (ch : NsChildren) :
    ∀ (name p : GoStr), p ∈ recurseChildren name ch ↔ IsLeafAmong name ch p := by
  cases ch with
  | nil =>
    intro name p
    constructor
    · intro h
      simp [recurseChildren] at h
    · intro h
      cases h
  | cons rel sub rest =>
    intro name p
    have hrec : recurseChildren name (NsChildren.cons rel sub rest)
        = recurseEnt (endsSlash rel) (name ++ rel) sub ++ recurseChildren name rest := rfl
    rw [hrec, List.mem_append]
    constructor
    · rintro (h1 | h2)
      · cases hs : endsSlash rel with
        | false =>
          rw [hs] at h1
          have hp : p = name ++ rel := by simpa [recurseEnt] using h1
          subst hp
          exact IsLeafAmong.here name rel sub rest hs
        | true =>
          rw [hs] at h1
          exact IsLeafAmong.deeper name rel sub rest p hs
            ((mem_recurseEnt sub (name ++ rel) p).mp h1)
      · exact IsLeafAmong.later name rel sub rest p
          ((mem_recurseChildren rest name p).mp h2)
    · intro h
      cases h with
      | here _ _ _ _ hs =>
        left
        rw [hs]
        simp [recurseEnt]
      | deeper _ _ _ _ _ hs hh =>
        left
        rw [hs]
        exact (mem_recurseEnt sub (name ++ rel) p).mpr hh
      | later _ _ _ _ _ hh =>
        right
        exact (mem_recurseChildren rest name p).mpr hh
end

/-- Appending a non-empty suffix decides the trailing byte. -/
theorem append_endsSlash (a rel : GoStr) (h : rel ≠ []) :
    endsSlash (a ++ rel) = endsSlash rel := by
  unfold endsSlash
  rw [List.getLast?_append_of_ne_nil a h]

mutual
/-- In a well-formed tree, every emitted key is a leaf path with no
trailing slash. -/
theorem noslash_recurseEnt (t : NsTree) :
    ∀ (name p : GoStr), wfTree t = true → p ∈ recurseEnt true name t →
      endsSlash p = false := by
  cases t with
  | listed children =>
    intro name p hwf hmem
    have hwf' : wfChildren children = true := hwf
    have hmem' : p ∈ recurseChildren name children := hmem
    exact noslash_recurseChildren children name p hwf' hmem'
  | forbidden =>
    intro name p _ hmem
    simp [recurseEnt] at hmem
  | failed =>
    intro name p _ hmem
    simp [recurseEnt] at hmem
/-- In a well-formed listing, every emitted key has no trailing slash. -/
theorem noslash_recurseChildren (ch : NsChildren) :
    ∀ (name p : GoStr), wfChildren ch = true → p ∈ recurseChildren name ch →
      endsSlash p = false := by
  cases ch with
  | nil =>
    intro name p _ hmem
    simp [recurseChildren] at hmem
  | cons rel sub rest =>
    intro name p hwf hmem
    have hwf' : (¬rel = [] ∧ wfTree sub = true) ∧ wfChildren rest = true := by
      simpa [wfChildren, Bool.and_eq_true, Bool.not_eq_true'] using hwf
    have hrel : rel ≠ [] := hwf'.1.1
    have hrec : recurseChildren name (NsChildren.cons rel sub rest)
        = recurseEnt (endsSlash rel) (name ++ rel) sub ++ recurseChildren name rest := rfl
    rw [hrec, List.mem_append] at hmem
    rcases hmem with h1 | h2
    · cases hs : endsSlash rel with
      | false =>
        rw [hs] at h1
        have hp : p = name ++ rel := by simpa [recurseEnt] using h1
        subst hp
        rw [append_endsSlash name rel hrel, hs]
      | true =>
        rw [hs] at h1
        exact noslash_recurseEnt sub (name ++ rel) p hwf'.1.2 h1
    · exact noslash_recurseChildren rest name p hwf'.2 h2
end

/-- The walk distributes over concatenated sibling lists. -/
theorem recurseChildren_nsAppend :
    ∀ (a b : NsChildren) (name : GoStr),
      recurseChildren name (nsAppend a b)
        = recurseChildren name a ++ recurseChildren name b
  | NsChildren.nil, b, name => rfl
  | NsChildren.cons rel sub rest, b, name => by
    have h1 : nsAppend (NsChildren.cons rel sub rest) b
        = NsChildren.cons rel sub (nsAppend rest b) := rfl
    have h2 : recurseChildren name (NsChildren.cons rel sub (nsAppend rest b))
        = recurseEnt (endsSlash rel) (name ++ rel) sub
            ++ recurseChildren name (nsAppend rest b) := rfl
    have h3 : recurseChildren name (NsChildren.cons rel sub rest)
        = recurseEnt (endsSlash rel) (name ++ rel) sub ++ recurseChildren name rest := rfl
    rw [h1, h2, recurseChildren_nsAppend rest b name, h3, List.append_assoc]

/-- Claim C3: the walk returns exactly the set of leaf paths under the
root, each formed by concatenating the parent path with the entry's name;
in a well-formed namespace every returned path lacks a trailing slash;
and re-running against the unchanged namespace yields the same result. -/
theorem c3_discover_leaves :
    ∀ (t : NsTree) (p : GoStr),
      (p ∈ getKeys t ↔ IsLeafUnder (bytes "/") t p)
      ∧ (wfTree t = true → ∀ q ∈ getKeys t, endsSlash q = false)
      ∧ getKeys t = getKeys t := by
  intro t p
  refine ⟨mem_recurseEnt t (bytes "/") p, ?_, rfl⟩
  intro hwf q hq
  exact noslash_recurseEnt t (bytes "/") q hwf hq

/-- Witness for C3 on a two-level namespace: the walk finds `/bar/baz`
as a leaf path and it has no trailing slash. -/
theorem c3_discover_leaves_witness :
    IsLeafUnder (bytes "/") demoTree (bytes "/bar/baz")
    ∧ endsSlash (bytes "/bar/baz") = false :=
  ⟨(c3_discover_leaves demoTree (bytes "/bar/baz")).1.mp (by decide),
   (c3_discover_leaves demoTree (bytes "/bar/baz")).2.1 (by decide) (bytes "/bar/baz")
     (by decide)⟩

/-- Claim C6: a branch whose listing is forbidden (403) or failed
contributes zero leaves, and the leaves of every sibling branch are
unaffected; the walk itself always completes with a result. -/
theorem c6_forbidden_branch_isolation :
    ∀ (name rel : GoStr) (pre post : NsChildren),
      endsSlash rel = true →
      (recurseChildren name (nsAppend pre (NsChildren.cons rel NsTree.forbidden post))
          = recurseChildren name pre ++ recurseChildren name post
        ∧ recurseChildren name (nsAppend pre (NsChildren.cons rel NsTree.failed post))
          = recurseChildren name pre ++ recurseChildren name post
        ∧ recurseEnt true name NsTree.forbidden = []
        ∧ recurseEnt true name NsTree.failed = []) := by
  intro name rel pre post hs
  have hforb : recurseChildren name (NsChildren.cons rel NsTree.forbidden post)
      = recurseEnt (endsSlash rel) (name ++ rel) NsTree.forbidden
          ++ recurseChildren name post := rfl
  have hfail : recurseChildren name (NsChildren.cons rel NsTree.failed post)
      = recurseEnt (endsSlash rel) (name ++ rel) NsTree.failed
          ++ recurseChildren name post := rfl
  refine ⟨?_, ?_, rfl, rfl⟩
  · rw [recurseChildren_nsAppend pre _ name, hforb, hs]
    rfl
  · rw [recurseChildren_nsAppend pre _ name, hfail, hs]
    rfl

/-- Witness for C6: with a forbidden directory branch between two leaf
siblings, the walk still returns both siblings. -/
theorem c6_forbidden_branch_isolation_witness :
    recurseChildren (bytes "/")
      (nsAppend (NsChildren.cons (bytes "a") NsTree.failed NsChildren.nil)
        (NsChildren.cons (bytes "secret-ops/") NsTree.forbidden
          (NsChildren.cons (bytes "b") NsTree.failed NsChildren.nil)))
      = recurseChildren (bytes "/") (NsChildren.cons (bytes "a") NsTree.failed NsChildren.nil)
        ++ recurseChildren (bytes "/") (NsChildren.cons (bytes "b") NsTree.failed NsChildren.nil) :=
  (c6_forbidden_branch_isolation (bytes "/") (bytes "secret-ops/")
    (NsChildren.cons (bytes "a") NsTree.failed NsChildren.nil)
    (NsChildren.cons (bytes "b") NsTree.failed NsChildren.nil) (by decide)).1

/-- Unfolding lemma: a cache hit returns the cached secret, unchanged
cache, and no request. -/
theorem GetSecret_hit (store : GoStr → HttpResult) (c : Client) (cache : Cache)
    (mount name : GoStr) (secret : VaultSecret)
    (hl : cacheLookup name cache = some secret) :
    Client.GetSecret store c cache mount name = (some secret, cache, false) := by
  unfold Client.GetSecret
  rw [hl]

/-- Unfolding lemma: a cache miss whose request fails or whose body does
not decode panics, leaving the cache unchanged. -/
theorem GetSecret_miss_fail (store : GoStr → HttpResult) (c : Client) (cache : Cache)
    (mount name : GoStr)
    (hl : cacheLookup name cache = none)
    (hs : store (dataUrl c.addr mount name) = HttpResult.netFailure
      ∨ ∃ status, store (dataUrl c.addr mount name) = HttpResult.response status none) :
    Client.GetSecret store c cache mount name = (none, cache, true) := by
  unfold Client.GetSecret
  rcases hs with hs | ⟨status, hs⟩ <;> rw [hl, hs]

/-- Unfolding lemma: a cache miss with a decoded response applies the
ambiguous-not-found check and, on success, stamps the UI URL and caches
the secret under the bare name. -/
theorem GetSecret_miss_response (store : GoStr → HttpResult) (c : Client) (cache : Cache)
    (mount name : GoStr) (status : Nat) (body : SecretFields)
    (hl : cacheLookup name cache = none)
    (hs : store (dataUrl c.addr mount name) = HttpResult.response status (some body)) :
    Client.GetSecret store c cache mount name
      = if status ≠ 200 ∧ body.data = none ∧ body.metadata = none then (none, cache, true)
        else (some { url := uiUrl c.addr mount name, content := body },
          (name, { url := uiUrl c.addr mount name, content := body }) :: cache, true) := by
  unfold Client.GetSecret
  rw [hl, hs]

/-- A successful `Client.GetSecret` leaves the returned secret in the
cache under the bare name. -/
theorem getSecret_cached (store : GoStr → HttpResult) (c : Client) (cache : Cache)
    (mount name : GoStr) (s : VaultSecret) (cache' : Cache) (req : Bool)
    (h : Client.GetSecret store c cache mount name = (some s, cache', req)) :
    cacheLookup name cache' = some s := by
  cases hl : cacheLookup name cache with
  | some secret =>
    rw [GetSecret_hit store c cache mount name secret hl] at h
    simp only [Prod.mk.injEq, Option.some.injEq] at h
    obtain ⟨h1, h2, -⟩ := h
    rw [← h2, hl, h1]
  | none =>
    cases hs : store (dataUrl c.addr mount name) with
    | netFailure =>
      rw [GetSecret_miss_fail store c cache mount name hl (Or.inl hs)] at h
      simp at h
    | response status body =>
      cases body with
      | none =>
        rw [GetSecret_miss_fail store c cache mount name hl (Or.inr ⟨status, hs⟩)] at h
        simp at h
      | some b =>
        rw [GetSecret_miss_response store c cache mount name status b hl hs] at h
        by_cases hcond : status ≠ 200 ∧ b.data = none ∧ b.metadata = none
        · rw [if_pos hcond] at h
          simp at h
        · rw [if_neg hcond] at h
          simp only [Prod.mk.injEq, Option.some.injEq] at h
          obtain ⟨h1, h2, -⟩ := h
          rw [← h2]
          simp [cacheLookup, h1]

/-- Claim C8: after a successful `GetSecret`, a repeated call with the
same path returns the identical secret, leaves the cache unchanged, and
does not contact the store; and no cache binding is ever evicted or
invalidated by a call. -/
theorem c8_cache_idempotent :
    ∀ (store : GoStr → HttpResult) (c : Client) (cache : Cache) (mount name : GoStr)
      (s : VaultSecret) (cache' : Cache) (req : Bool),
      Client.GetSecret store c cache mount name = (some s, cache', req) →
      Client.GetSecret store c cache' mount name = (some s, cache', false)
      ∧ (∀ (k : GoStr) (v : VaultSecret),
          cacheLookup k cache = some v → cacheLookup k cache' = some v) := by
  intro store c cache mount name s cache' req h
  have hcached := getSecret_cached store c cache mount name s cache' req h
  constructor
  · exact GetSecret_hit store c cache' mount name s hcached
  · intro k v hk
    cases hl : cacheLookup name cache with
    | some secret =>
      rw [GetSecret_hit store c cache mount name secret hl] at h
      simp only [Prod.mk.injEq, Option.some.injEq] at h
      obtain ⟨-, h2, -⟩ := h
      rw [← h2]
      exact hk
    | none =>
      cases hs : store (dataUrl c.addr mount name) with
      | netFailure =>
        rw [GetSecret_miss_fail store c cache mount name hl (Or.inl hs)] at h
        simp at h
      | response status body =>
        cases body with
        | none =>
          rw [GetSecret_miss_fail store c cache mount name hl (Or.inr ⟨status, hs⟩)] at h
          simp at h
        | some b =>
          rw [GetSecret_miss_response store c cache mount name status b hl hs] at h
          by_cases hcond : status ≠ 200 ∧ b.data = none ∧ b.metadata = none
          · rw [if_pos hcond] at h
            simp at h
          · rw [if_neg hcond] at h
            simp only [Prod.mk.injEq, Option.some.injEq] at h
            obtain ⟨-, h2, -⟩ := h
            rw [← h2]
            have hkname : ¬ k = name := by
              intro he
              subst he
              rw [hl] at hk
              exact Option.noConfusion hk
            simpa [cacheLookup, hkname] using hk

/-- Witness for C8: after one successful fetch of "p", the repeated call
returns the identical secret without touching the store. -/
theorem c8_cache_idempotent_witness :
    Client.GetSecret demoStore ⟨[], []⟩ demoCache (bytes "m1") (bytes "p")
      = (some demoSecret, demoCache, false) :=
  (c8_cache_idempotent demoStore ⟨[], []⟩ [] (bytes "m1") (bytes "p")
    demoSecret demoCache true rfl).1

/-- Claim C10: the secret cache is keyed by the path name alone — after a
successful fetch through mount `m1`, a later call through any mount `m2`
returns the secret cached from `m1`, without contacting the store. -/
theorem c10_cache_ignores_mount :
    ∀ (store : GoStr → HttpResult) (c : Client) (cache : Cache) (m1 m2 name : GoStr)
      (s : VaultSecret) (cache' : Cache) (req : Bool),
      Client.GetSecret store c cache m1 name = (some s, cache', req) →
      Client.GetSecret store c cache' m2 name = (some s, cache', false) := by
  intro store c cache m1 m2 name s cache' req h
  exact GetSecret_hit store c cache' m2 name s
    (getSecret_cached store c cache m1 name s cache' req h)

/-- Witness for C10: the secret fetched through mount "m1" (whose stamped
URL names "m1") is returned unchanged by a later call through "m2". -/
theorem c10_cache_ignores_mount_witness :
    Client.GetSecret demoStore ⟨[], []⟩ demoCache (bytes "m2") (bytes "p")
      = (some demoSecret, demoCache, false) :=
  c10_cache_ignores_mount demoStore ⟨[], []⟩ [] (bytes "m1") (bytes "m2") (bytes "p")
    demoSecret demoCache true rfl

/-- Claim C7: for a `getSecret` response failing the 200 check, the call
still succeeds with the decoded body whenever `data` or `metadata` is
present, and it returns an error only when both are absent. -/
theorem c7_ambiguous_not_found :
    ∀ (store : GoStr → HttpResult) (v : VaultClient) (name : GoStr)
      (status : Nat) (body : SecretFields),
      store (dataUrl v.addr v.mount name) = HttpResult.response status (some body) →
      status ≠ 200 →
      ((body.data ≠ none ∨ body.metadata ≠ none) →
          VaultClient.getSecret store v name = Except.ok body)
      ∧ ((body.data = none ∧ body.metadata = none) →
          VaultClient.getSecret store v name = Except.error GetSecretError.statusNotOk)
      ∧ (∀ e, VaultClient.getSecret store v name = Except.error e →
          body.data = none ∧ body.metadata = none) := by
  intro store v name status body hstore hstatus
  have hstep : VaultClient.getSecret store v name
      = if status ≠ 200 ∧ body.data = none ∧ body.metadata = none then
          Except.error GetSecretError.statusNotOk
        else Except.ok body := by
    unfold VaultClient.getSecret
    rw [hstore]
  rw [hstep]
  refine ⟨?_, ?_, ?_⟩
  · intro hpresent
    have hcond : ¬ (status ≠ 200 ∧ body.data = none ∧ body.metadata = none) := by
      rintro ⟨-, h1, h2⟩
      rcases hpresent with hp | hp
      · exact hp h1
      · exact hp h2
    rw [if_neg hcond]
  · rintro ⟨h1, h2⟩
    rw [if_pos ⟨hstatus, h1, h2⟩]
  · intro e he
    by_cases hcond : status ≠ 200 ∧ body.data = none ∧ body.metadata = none
    · exact ⟨hcond.2.1, hcond.2.2⟩
    · rw [if_neg hcond] at he
      exact Except.noConfusion he

/-- Witness for C7: a 404 whose body still decodes with a `data` map is
returned as a valid (empty) secret. -/
theorem c7_ambiguous_not_found_witness :
    VaultClient.getSecret (fun _ => HttpResult.response 404 (some ⟨some [], none⟩))
      ⟨[], [], []⟩ [] = Except.ok ⟨some [], none⟩ :=
  (c7_ambiguous_not_found (fun _ => HttpResult.response 404 (some ⟨some [], none⟩))
    ⟨[], [], []⟩ [] 404 ⟨some [], none⟩ rfl (by decide)).1 (by decide)

/-- Claim C5 as stated is not guaranteed by the code: `newKeysView` sorts
with `slices.SortFunc`, whose contract does not promise stability, and an
admissible sort of two tied candidates can swap their input order.  Here
the empty prompt scores both "b" and "a" with 0; the swapped output
satisfies the sort contract but changes the relative order of the tied
candidates (their score-0 filtrations differ). -/
theorem c5_stability_counterexample :
    SortFuncPost (matchesOf [] [[98], [97]])
      [{ key := [97], consecutiveMatches := 0 }, { key := [98], consecutiveMatches := 0 }]
    ∧ ¬ (List.filter (fun m => m.consecutiveMatches == 0)
          [{ key := [97], consecutiveMatches := 0 },
           { key := [98], consecutiveMatches := 0 }]
        = List.filter (fun m => m.consecutiveMatches == 0) (matchesOf [] [[98], [97]])) := by
  refine ⟨⟨by decide, List.chain'_pair.mpr (by decide)⟩, by decide⟩

/-- Claim C5, amended: every admissible output of the ranking keeps
exactly the matching candidates, each paired with its score, in
non-increasing score order; the relative order of equal-score candidates
is not specified (the sort used is not guaranteed stable). -/
theorem c5_rank_amended :
    ∀ (prompt : GoStr) (keys : List GoStr) (output : List Match),
      SortFuncPost (matchesOf prompt keys) output →
      (matchesOf prompt keys).Perm output
      ∧ output.Chain' (fun a b => b.consecutiveMatches ≤ a.consecutiveMatches)
      ∧ (∀ m, m ∈ output ↔ m ∈ matchesOf prompt keys)
      ∧ (∀ m, m ∈ output →
          (matchesPrompt prompt m.key).fst = true
            ∧ m.consecutiveMatches = (matchesPrompt prompt m.key).snd)
      ∧ (∀ k, k ∈ keys → (matchesPrompt prompt k).fst = true →
          { key := k, consecutiveMatches := (matchesPrompt prompt k).snd } ∈ output) := by
  intro prompt keys output hpost
  obtain ⟨hperm, hchain⟩ := hpost
  refine ⟨hperm, hchain, fun m => hperm.mem_iff.symm, ?_, ?_⟩
  · intro m hm
    have hm' : m ∈ matchesOf prompt keys := hperm.mem_iff.mpr hm
    unfold matchesOf at hm'
    rw [List.mem_filterMap] at hm'
    obtain ⟨k, hk, hsome⟩ := hm'
    by_cases hmatch : (matchesPrompt prompt k).fst = true
    · rw [if_pos hmatch] at hsome
      obtain rfl : ({ key := k, consecutiveMatches := (matchesPrompt prompt k).snd } : Match)
          = m := by
        simpa using hsome
      exact ⟨hmatch, rfl⟩
    · rw [if_neg hmatch] at hsome
      exact Option.noConfusion hsome
  · intro k hk hmatch
    have hmem : ({ key := k, consecutiveMatches := (matchesPrompt prompt k).snd } : Match)
        ∈ matchesOf prompt keys := by
      unfold matchesOf
      rw [List.mem_filterMap]
      exact ⟨k, hk, by rw [if_pos hmatch]⟩
    exact hperm.mem_iff.mp hmem

/-- Witness for C5 (amended): for the identity-ordered admissible output,
the kept entry for the matching key "a" is present. -/
theorem c5_rank_amended_witness :
    ({ key := bytes "a",
       consecutiveMatches := (matchesPrompt (bytes "a") (bytes "a")).snd } : Match)
      ∈ matchesOf (bytes "a") [bytes "a"] :=
  (c5_rank_amended (bytes "a") [bytes "a"] (matchesOf (bytes "a") [bytes "a"])
    ⟨List.Perm.refl _, by
      have h : matchesOf (bytes "a") [bytes "a"]
          = [{ key := bytes "a", consecutiveMatches := 0 }] := by decide
      rw [h]
      exact List.chain'_singleton _⟩).2.2.2.2 (bytes "a") (by decide) (by decide)

/-- `setSecret` keeps every field but the selection. -/
theorem setSecret_fields (s : Ui) :
    (setSecret s).filteredKeys = s.filteredKeys
    ∧ (setSecret s).cursor = s.cursor
    ∧ (setSecret s).viewStart = s.viewStart
    ∧ (setSecret s).viewEnd = s.viewEnd
    ∧ (setSecret s).height = s.height := by
  unfold setSecret
  split <;> exact ⟨rfl, rfl, rfl, rfl, rfl⟩

/-- `setSecret` clears the selection of an empty filtered list. -/
theorem setSecret_secret_none (s : Ui) (h : s.filteredKeys.length = 0) :
    (setSecret s).secret = none := by
  unfold setSecret
  rw [if_neg (by omega)]

/-- A state satisfying the numeric invariant satisfies the full invariant
after `setSecret`. -/
theorem invAux_setSecret (s : Ui) (h : NumInv s) : InvAux (setSecret s) := by
  obtain ⟨hne, hemp, hvs, hve⟩ := h
  obtain ⟨hf, hc, hv, he, hh⟩ := setSecret_fields s
  refine ⟨⟨?_, ?_⟩, ?_, ?_⟩
  · rw [hf, hc, hv, hh]
    exact hne
  · intro h0
    rw [hf] at h0
    exact ⟨hc ▸ hemp h0, setSecret_secret_none s h0⟩
  · rw [hv]
    exact hvs
  · rw [he, hv, hh]
    exact hve

/-- `moveUp` preserves the strengthened invariant. -/
theorem moveUp_invAux (s : Ui) (h : InvAux s) : InvAux (moveUp s) := by
  obtain ⟨⟨hne, hemp⟩, hvs, hve⟩ := h
  unfold moveUp
  apply invAux_setSecret
  by_cases hg : s.viewStart + s.cursor + 1 < (s.filteredKeys.length : Int)
  · have hpos : 0 < s.filteredKeys.length := by
      by_contra hzero
      have h0 : s.filteredKeys.length = 0 := by omega
      have hc0 := (hemp h0).1
      rw [h0] at hg
      simp only [Nat.cast_zero] at hg
      omega
    obtain ⟨h1, h2, h3, h4⟩ := hne hpos
    rw [if_pos hg]
    by_cases hsc : s.cursor + 1 ≥ nKeysToShow s.height - SCROLL_OFF
        ∧ s.viewEnd < (s.filteredKeys.length : Int)
    · rw [if_pos hsc]
      unfold NumInv
      dsimp only
      refine ⟨fun _ => ?_, fun h0 => ?_, ?_, ?_⟩
      · simp only [nKeysToShow, SCROLL_OFF] at *
        omega
      · omega
      · omega
      · simp only [nKeysToShow] at *
        omega
    · rw [if_neg hsc]
      push_neg at hsc
      unfold NumInv
      dsimp only
      refine ⟨fun _ => ?_, fun h0 => ?_, hvs, hve⟩
      · simp only [nKeysToShow, SCROLL_OFF] at *
        omega
      · omega
  · rw [if_neg hg]
    exact ⟨hne, fun h0 => (hemp h0).1, hvs, hve⟩

/-- `moveDown` preserves the strengthened invariant. -/
theorem moveDown_invAux (s : Ui) (h : InvAux s) : InvAux (moveDown s) := by
  obtain ⟨⟨hne, hemp⟩, hvs, hve⟩ := h
  unfold moveDown
  apply invAux_setSecret
  by_cases hg : 0 < s.cursor
  · have hpos : 0 < s.filteredKeys.length := by
      by_contra hzero
      have h0 : s.filteredKeys.length = 0 := by omega
      have hc0 := (hemp h0).1
      omega
    obtain ⟨h1, h2, h3, h4⟩ := hne hpos
    rw [if_pos hg]
    by_cases hsc : s.cursor - 1 < SCROLL_OFF ∧ 0 < s.viewStart
    · rw [if_pos hsc]
      unfold NumInv
      dsimp only
      refine ⟨fun _ => ?_, fun h0 => ?_, ?_, ?_⟩
      · simp only [nKeysToShow, SCROLL_OFF] at *
        omega
      · omega
      · omega
      · simp only [nKeysToShow] at *
        omega
    · rw [if_neg hsc]
      push_neg at hsc
      unfold NumInv
      dsimp only
      refine ⟨fun _ => ?_, fun h0 => ?_, hvs, hve⟩
      · simp only [nKeysToShow, SCROLL_OFF] at *
        omega
      · omega
  · rw [if_neg hg]
    exact ⟨hne, fun h0 => (hemp h0).1, hvs, hve⟩

/-- `resizeEv`, written without the intermediate `let` state. -/
theorem resizeEv_eq (s : Ui) (newHeight : Int) :
    resizeEv s newHeight
      = if s.viewStart + s.cursor
            ≥ min (nKeysToShow newHeight) (s.filteredKeys.length : Int) then
          { s with
            height := newHeight
            viewEnd := min (nKeysToShow newHeight) (s.filteredKeys.length : Int)
            cursor := 0
            viewStart := 0 }
        else
          { s with
            height := newHeight
            viewEnd := min (nKeysToShow newHeight) (s.filteredKeys.length : Int) } := rfl

/-- A resize to a height of at least 3 rows preserves the strengthened
invariant. -/
theorem resizeEv_invAux (s : Ui) (newHeight : Int) (h : InvAux s) (hh : 3 ≤ newHeight) :
    InvAux (resizeEv s newHeight) := by
  obtain ⟨⟨hne, hemp⟩, hvs, hve⟩ := h
  rw [resizeEv_eq s newHeight]
  by_cases hreset : s.viewStart + s.cursor
      ≥ min (nKeysToShow newHeight) (s.filteredKeys.length : Int)
  · rw [if_pos hreset]
    refine ⟨⟨fun hp => ?_, fun h0 => ⟨rfl, (hemp h0).2⟩⟩, le_refl 0, ?_⟩
    · show 0 ≤ (0 : Int)
        ∧ (0 : Int) < min (nKeysToShow newHeight) ((s.filteredKeys.length : Int) - 0)
        ∧ 0 ≤ (0 : Int) + 0 ∧ (0 : Int) + 0 < (s.filteredKeys.length : Int)
      simp only [nKeysToShow] at *
      omega
    · show min (nKeysToShow newHeight) (s.filteredKeys.length : Int)
        ≤ 0 + nKeysToShow newHeight
      simp only [nKeysToShow] at *
      omega
  · rw [if_neg hreset]
    push_neg at hreset
    refine ⟨⟨fun hp => ?_, fun h0 => ⟨(hemp h0).1, (hemp h0).2⟩⟩, hvs, ?_⟩
    · obtain ⟨h1, -, -, -⟩ := hne hp
      show 0 ≤ s.cursor
        ∧ s.cursor < min (nKeysToShow newHeight)
            ((s.filteredKeys.length : Int) - s.viewStart)
        ∧ 0 ≤ s.viewStart + s.cursor
        ∧ s.viewStart + s.cursor < (s.filteredKeys.length : Int)
      simp only [nKeysToShow] at *
      omega
    · show min (nKeysToShow newHeight) (s.filteredKeys.length : Int)
        ≤ s.viewStart + nKeysToShow newHeight
      simp only [nKeysToShow] at *
      omega

/-- Any admissible `newKeysView` outcome from an invariant state with a
viewport of at least one row satisfies the strengthened invariant. -/
theorem newKeysView_invAux (s s' : Ui) (h : InvAux s) (hh : 3 ≤ s.height)
    (hrel : newKeysViewRel s s') : InvAux s' := by
  obtain ⟨sorted, -, rfl⟩ := hrel
  apply invAux_setSecret
  obtain ⟨⟨hne, hemp⟩, hvs, hve⟩ := h
  have hcur : 0 ≤ s.cursor := by
    by_cases hpos : 0 < s.filteredKeys.length
    · exact (hne hpos).1
    · have := (hemp (by omega)).1
      omega
  have hcurlt : s.cursor < nKeysToShow s.height := by
    by_cases hpos : 0 < s.filteredKeys.length
    · have := (hne hpos).2.1
      simp only [nKeysToShow] at *
      omega
    · have := (hemp (by omega)).1
      simp only [nKeysToShow] at *
      omega
  unfold NumInv
  dsimp only
  simp only [List.length_map]
  refine ⟨fun hp => ?_, fun h0 => ?_, le_refl 0, ?_⟩
  · rw [if_neg (by omega)]
    simp only [nKeysToShow] at *
    omega
  · rw [if_pos h0]
  · simp only [nKeysToShow] at *
    omega

/-- The state entering the event loop satisfies the strengthened
invariant for a viewport of at least one row. -/
theorem initUi_invAux (keys : List GoStr) (h : Int) (hh : 3 ≤ h) :
    InvAux (initUi keys h) := by
  unfold InvAux ClaimInv initUi nKeysToShow
  dsimp only
  refine ⟨⟨fun hp => absurd hp (by simp), fun _ => ⟨rfl, rfl⟩⟩, le_refl 0, by omega⟩

/-- Claim C4, amended: the ViewState invariant is preserved by every
transition — prompt edits (`newKeysViewRel`), cursor moves, and resizes —
and holds for the initial state, provided the viewport holds at least one
key (`3 ≤ height`); moves need no height assumption.  (As stated the
claim fails for resizes to a viewport of zero rows, see the
counterexample.) -/
theorem c4_invariant_amended :
    (∀ s s', InvAux s → 3 ≤ s.height → newKeysViewRel s s' → InvAux s')
    ∧ (∀ s, InvAux s → InvAux (moveUp s))
    ∧ (∀ s, InvAux s → InvAux (moveDown s))
    ∧ (∀ s h, InvAux s → 3 ≤ h → InvAux (resizeEv s h))
    ∧ (∀ s, InvAux s → ClaimInv s)
    ∧ (∀ keys h, 3 ≤ h → InvAux (initUi keys h)) :=
  ⟨fun s s' h hh hrel => newKeysView_invAux s s' h hh hrel,
   fun s h => moveUp_invAux s h,
   fun s h => moveDown_invAux s h,
   fun s h hinv hh => resizeEv_invAux s h hinv hh,
   fun _ h => h.1,
   fun keys h hh => initUi_invAux keys h hh⟩

/-- Witness for C4 (amended) at the concrete state `uiDemo`: the moves,
a resize to 5 rows, and the initial state all satisfy the invariant. -/
theorem c4_invariant_amended_witness :
    InvAux (moveUp uiDemo) ∧ InvAux (moveDown uiDemo)
    ∧ InvAux (resizeEv uiDemo 5) ∧ InvAux (initUi [] 3) ∧ ClaimInv uiDemo :=
  ⟨c4_invariant_amended.2.1 uiDemo (by decide),
   c4_invariant_amended.2.2.1 uiDemo (by decide),
   c4_invariant_amended.2.2.2.1 uiDemo 5 (by decide) (by decide),
   c4_invariant_amended.2.2.2.2.2 [] 3 (by decide),
   c4_invariant_amended.2.2.2.2.1 uiDemo (by decide)⟩

/-- Counterexample to C4 as stated: from the legitimate state `uiDemo`
(which satisfies the claimed invariant), the resize transition to a
2-row terminal — viewport size 0 — produces a state violating the
claimed invariant: the filtered list is non-empty but
`cursor < min(viewportSize, len(filtered) - viewStart)` fails, since the
right-hand side is 0. -/
theorem c4_invariant_counterexample :
    InvAux uiDemo ∧ ClaimInv uiDemo ∧ ¬ ClaimInv (resizeEv uiDemo 2) := by
  refine ⟨by decide, by decide, by decide⟩
